import Mathlib

/-!
Shallow embedding of the `jars` crate (`src/lib.rs`): a utility library that
extracts entries of a jar (zip) archive into a map from entry path to bytes,
filtered by path-prefix targets and file-extension targets.

Rust strings are modelled as Lean `String`; `HashSet<String>` as `List String`
(only membership matters, builder insertion is deduplicating); the
`HashMap<String, Vec<u8>>` of extracted files as an association list with
replace-on-insert; zip entries as a record carrying the result of
`enclosed_name` (`none` when the container reports the path as unsafe),
the `is_dir` flag, and the outcome of reading the entry's bytes; fallible
operations return `Except String _`.
-/

namespace Jars

/-- Rust `str::rsplit_once` for a single-character pattern, on character
lists: splits at the last occurrence of `sep`, returning the parts before
and after it, or `none` when `sep` does not occur. -/
def rsplitOnceList (sep : Char) : List Char → Option (List Char × List Char)
  | [] => none
  | c :: rest =>
    match rsplitOnceList sep rest with
    | some (before, after) => some (c :: before, after)
    | none => if c = sep then some ([], rest) else none

/-- Rust `str::rsplit_once(".")` lifted to `String`. -/
def rsplitOnce (s : String) (sep : Char) : Option (String × String) :=
  (rsplitOnceList sep s.data).map (fun pq => (⟨pq.1⟩, ⟨pq.2⟩))

/-- Rust `str::starts_with(pat)`: the pattern's characters are an initial
segment of the string's characters. -/
def strStartsWith (s pat : String) : Bool :=
  pat.data.isPrefixOf s.data

/-- Rust `str::ends_with(pat)`: the pattern's characters are a final
segment of the string's characters. -/
def strEndsWith (s pat : String) : Bool :=
  pat.data.isSuffixOf s.data

/-- `JarOption` from `src/lib.rs`: extraction targets (path prefixes) and
extension targets. -/
structure JarOption where
  extract_targets : List String
  extension_targets : List String

/-- `JarOption::target_match`: true when the target set is empty, otherwise
true iff the path starts with some registered target. -/
def JarOption.target_match (self : JarOption) (qualified_target_path : String) : Bool :=
  if self.extract_targets.isEmpty then
    true
  else
    self.extract_targets.any (fun target => strStartsWith qualified_target_path target)

/-- `JarOption::ext_match`: true when the extension set is empty, otherwise
split the path at the last `.`; with no `.` the result is false, else true
iff the part after the last `.` ends with some registered extension. -/
def JarOption.ext_match (self : JarOption) (qualified_target_path : String) : Bool :=
  if self.extension_targets.isEmpty then
    true
  else
    match rsplitOnce qualified_target_path '.' with
    | some (_, extension) => self.extension_targets.any (fun ext => strEndsWith extension ext)
    | none => false

/-- `HashSet::insert` on the list model: deduplicating insertion. -/
def setInsert (s : List String) (x : String) : List String :=
  if x ∈ s then s else s ++ [x]

/-- `JarOptionBuilder` from `src/lib.rs`. -/
structure JarOptionBuilder where
  extract_targets : List String
  extension_targets : List String

/-- `JarOptionBuilder::default`: a `JarOption` with both sets empty. -/
def JarOptionBuilder.default : JarOption :=
  { extract_targets := [], extension_targets := [] }

/-- `JarOptionBuilder::builder`. -/
def JarOptionBuilder.builder : JarOptionBuilder :=
  { extract_targets := [], extension_targets := [] }

/-- `JarOptionBuilder::keep_meta_info`. -/
def JarOptionBuilder.keep_meta_info (self : JarOptionBuilder) : JarOptionBuilder :=
  { self with extract_targets := setInsert self.extract_targets "META-INF" }

/-- `JarOptionBuilder::target`. -/
def JarOptionBuilder.target (self : JarOptionBuilder) (target : String) : JarOptionBuilder :=
  { self with extract_targets := setInsert self.extract_targets target }

/-- `JarOptionBuilder::ext`. -/
def JarOptionBuilder.ext (self : JarOptionBuilder) (ext : String) : JarOptionBuilder :=
  { self with extension_targets := setInsert self.extension_targets ext }

/-- `JarOptionBuilder::build`. -/
def JarOptionBuilder.build (self : JarOptionBuilder) : JarOption :=
  { extract_targets := self.extract_targets, extension_targets := self.extension_targets }

/-- One zip entry as the `jar` loop observes it: the value of
`enclosed_name` (`none` when the container reports the path as
unrepresentable or unsafe), the `is_dir` flag, and the outcome of reading
the entry's bytes. -/
structure ZipEntryData where
  enclosed_name : Option String
  is_dir : Bool
  bytes : Except String (List Nat)

/-- `Jar` from `src/lib.rs`: extracted files, keyed by qualified path. -/
structure Jar where
  files : List (String × List Nat)

/-- `HashMap::insert` on the association-list model: replace the binding in
place when the key is present, append otherwise. -/
def mapInsert (k : String) (v : List Nat) : List (String × List Nat) → List (String × List Nat)
  | [] => [(k, v)]
  | (k0, v0) :: rest => if k0 = k then (k, v) :: rest else (k0, v0) :: mapInsert k v rest

/-- `HashMap::get` on the association-list model. -/
def mapFind (p : String) : List (String × List Nat) → Option (List Nat)
  | [] => none
  | (k, v) :: rest => if k = p then some v else mapFind p rest

/-- The loop body of `jar`: iterate over the archive's entries in directory
order. A `by_index` failure (an `Except.error` item) aborts; an entry with
no enclosed name is skipped; a directory entry is skipped; an entry
matching neither the target filter nor the extension filter is skipped;
otherwise the entry's bytes are read (a read failure aborts) and inserted. -/
def jarLoop (option : JarOption) :
    List (Except String ZipEntryData) → List (String × List Nat) →
      Except String (List (String × List Nat))
  | [], files => .ok files
  | .error e :: _, _ => .error e
  | .ok file :: rest, files =>
    match file.enclosed_name with
    | none => jarLoop option rest files
    | some file_path =>
      if file.is_dir then
        jarLoop option rest files
      else if !option.target_match file_path && !option.ext_match file_path then
        jarLoop option rest files
      else
        match file.bytes with
        | .error e => .error e
        | .ok bs => jarLoop option rest (mapInsert file_path bs files)

/-- `jar` from `src/lib.rs`. The archive argument is the outcome of
`File::open(path).map(ZipArchive::new)??`: an error when opening or parsing
the archive fails, otherwise the entry list in directory order. -/
def jar (archive : Except String (List (Except String ZipEntryData)))
    (option : JarOption) : Except String Jar :=
  match archive with
  | .error e => .error e
  | .ok entries =>
    match jarLoop option entries [] with
    | .error e => .error e
    | .ok files => .ok { files := files }

/-! ### Spec-side filter predicates, written from the spec's words -/

/-- Spec `pathMatches(entryPath)`: true if the prefix set is empty, else
true iff the path starts with some string in the prefix set, as a plain
initial-segment comparison on characters. -/
def pathMatchesSpec (option : JarOption) (entryPath : String) : Prop :=
  option.extract_targets = [] ∨
    ∃ t ∈ option.extract_targets, t.data <+: entryPath.data

/-- Spec `extensionMatches(entryPath)`: true if the extension set is empty;
else split the path at the last `.` (a decomposition `before ++ . :: after`
with no `.` in `after`); with no `.` present, false; else true iff the part
after the last `.` ends with some registered extension string. -/
def extensionMatchesSpec (option : JarOption) (entryPath : String) : Prop :=
  option.extension_targets = [] ∨
    ∃ before after, entryPath.data = before ++ '.' :: after ∧ '.' ∉ after ∧
      ∃ ext ∈ option.extension_targets, ext.data <:+ after

/-! ### Characterising predicates for the loop -/

/-- An entry that the `jar` loop extracts under path `p`: its enclosed name
is `p`, it is not a directory, and it passes the target filter or the
extension filter. -/
def extracted (option : JarOption) (p : String) (e : ZipEntryData) : Prop :=
  e.enclosed_name = some p ∧ e.is_dir = false ∧
    (option.target_match p = true ∨ option.ext_match p = true)

/-- Boolean form of `extracted`. -/
def acceptedB (option : JarOption) (p : String) (e : ZipEntryData) : Bool :=
  e.enclosed_name == some p && !e.is_dir &&
    (option.target_match p || option.ext_match p)

/-- The bytes a single archive item would contribute under key `p`:
`none` for a `by_index` error, a skipped entry, or unreadable bytes. -/
def itemBytes (option : JarOption) (p : String) :
    Except String ZipEntryData → Option (List Nat)
  | .ok e =>
    if acceptedB option p e then
      match e.bytes with
      | .ok bs => some bs
      | .error _ => none
    else none
  | .error _ => none

/-- The bytes of the last entry in directory order that the loop accepts
under key `p`, when that entry's bytes are readable. -/
def lastAcceptedBytes (option : JarOption) (p : String) :
    List (Except String ZipEntryData) → Option (List Nat)
  | [] => none
  | item :: rest =>
    match lastAcceptedBytes option p rest with
    | some bs => some bs
    | none => itemBytes option p item

/-- Number of bindings for key `p` in the association-list map. -/
def countKey (p : String) (m : List (String × List Nat)) : Nat :=
  (m.filter (fun kv => kv.1 == p)).length

/-- Key list of a `jar` outcome: the extracted paths on success, nothing on
failure. -/
def resultKeys (r : Except String Jar) : List String :=
  match r with
  | .ok j => j.files.map Prod.fst
  | .error _ => []

/-! ### Concrete archives used to instantiate the theorems -/

/-- Concrete class-file entry `java/lang/Object.class`. -/
def objectEntry : ZipEntryData :=
  { enclosed_name := some "java/lang/Object.class", is_dir := false, bytes := .ok [1] }

/-- Concrete class-file entry `java/util/List.class`. -/
def listEntry : ZipEntryData :=
  { enclosed_name := some "java/util/List.class", is_dir := false, bytes := .ok [2] }

/-- Concrete manifest entry `META-INF/MANIFEST.MF`. -/
def manifestEntry : ZipEntryData :=
  { enclosed_name := some "META-INF/MANIFEST.MF", is_dir := false, bytes := .ok [3] }

/-- Concrete directory entry `java/lang/`. -/
def dirEntry : ZipEntryData :=
  { enclosed_name := some "java/lang/", is_dir := true, bytes := .ok [] }

/-- Concrete entry whose path the container reports as unsafe. -/
def unsafeEntry : ZipEntryData :=
  { enclosed_name := none, is_dir := false, bytes := .ok [9] }

/-- Two concrete entries normalising to the same logical path `a.txt`. -/
def dupEntryA : ZipEntryData :=
  { enclosed_name := some "a.txt", is_dir := false, bytes := .ok [10] }

/-- Second entry for path `a.txt`, later in directory order. -/
def dupEntryB : ZipEntryData :=
  { enclosed_name := some "a.txt", is_dir := false, bytes := .ok [20] }

/-- The four-entry archive of the concrete scenario: two class files, the
manifest, and a directory entry. -/
def scenarioArchive : List (Except String ZipEntryData) :=
  [Except.ok objectEntry, Except.ok listEntry, Except.ok manifestEntry, Except.ok dirEntry]

/-- The option of the concrete scenario, built by `target("java/lang")`. -/
def scenarioOption : JarOption :=
  (JarOptionBuilder.builder.target "java/lang").build

/-! ### Splitting at the last separator -/

theorem rsplitOnceList_eq_none (sep : Char) (l : List Char) :
    rsplitOnceList sep l = none ↔ sep ∉ l := by
  induction l with
  | nil => simp [rsplitOnceList]
  | cons c rest ih =>
    simp only [rsplitOnceList, List.mem_cons]
    cases h : rsplitOnceList sep rest with
    | some pq =>
      have hmem : sep ∈ rest := by
        by_contra hn
        rw [← ih] at hn
        rw [h] at hn
        exact Option.some_ne_none _ hn
      simp [hmem]
    | none =>
      by_cases hc : c = sep
      · simp [hc]
      · have hrest : sep ∉ rest := ih.mp h
        simp [hc, hrest]
        intro he
        exact hc he.symm

theorem rsplitOnceList_some_of_split (sep : Char) (before after : List Char)
    (hafter : sep ∉ after) :
    rsplitOnceList sep (before ++ sep :: after) = some (before, after) := by
  induction before with
  | nil =>
    have h0 : rsplitOnceList sep after = none := (rsplitOnceList_eq_none sep after).mpr hafter
    simp [rsplitOnceList, h0]
  | cons c rest ih =>
    simp [rsplitOnceList, ih]

theorem rsplitOnceList_split_of_some (sep : Char) (l before after : List Char)
    (h : rsplitOnceList sep l = some (before, after)) :
    l = before ++ sep :: after ∧ sep ∉ after := by
  induction l generalizing before after with
  | nil => simp [rsplitOnceList] at h
  | cons c rest ih =>
    simp only [rsplitOnceList] at h
    cases h2 : rsplitOnceList sep rest with
    | some pq =>
      rw [h2] at h
      simp only [Option.some.injEq, Prod.mk.injEq] at h
      obtain ⟨hb, ha⟩ := h
      obtain ⟨hl, hni⟩ := ih pq.1 pq.2 (by rw [h2])
      subst hb
      subst ha
      exact ⟨by simp [hl], hni⟩
    | none =>
      rw [h2] at h
      by_cases hc : c = sep
      · rw [if_pos hc] at h
        simp only [Option.some.injEq, Prod.mk.injEq] at h
        obtain ⟨hb, ha⟩ := h
        subst hb
        subst ha
        exact ⟨by simp [hc], (rsplitOnceList_eq_none sep rest).mp h2⟩
      · rw [if_neg hc] at h
        exact absurd h (Option.noConfusion)

/-! ### The filters agree with the spec's predicates -/

theorem target_match_iff (option : JarOption) (entryPath : String) :
    option.target_match entryPath = true ↔ pathMatchesSpec option entryPath := by
  unfold JarOption.target_match pathMatchesSpec strStartsWith
  by_cases he : option.extract_targets = []
  · simp [he]
  · have hempty : option.extract_targets.isEmpty = false := by
      simp [List.isEmpty_iff, he]
    rw [hempty, if_neg Bool.false_ne_true]
    simp [ List.isPrefixOf_iff_prefix, he, List.any_eq_true]

theorem ext_match_iff (option : JarOption) (entryPath : String) :
    option.ext_match entryPath = true ↔ extensionMatchesSpec option entryPath := by
  unfold JarOption.ext_match extensionMatchesSpec rsplitOnce strEndsWith
  by_cases he : option.extension_targets = []
  · simp [he]
  · have hempty : option.extension_targets.isEmpty = false := by
      simp [List.isEmpty_iff, he]
    rw [hempty, if_neg Bool.false_ne_true]
    cases h : rsplitOnceList '.' entryPath.data with
    | none =>
      have hnd : '.' ∉ entryPath.data := (rsplitOnceList_eq_none '.' entryPath.data).mp h
      simp only [Option.map_none', he, false_or]
      constructor
      · intro hc
        exact absurd hc Bool.false_ne_true
      · rintro ⟨before, after, hsplit, -, -⟩
        exact absurd (hsplit ▸ (List.mem_append.mpr (Or.inr (List.mem_cons_self _ _)))) hnd
    | some pq =>
      obtain ⟨before, after⟩ := pq
      obtain ⟨hl, hni⟩ := rsplitOnceList_split_of_some '.' entryPath.data before after h
      simp only [Option.map_some', List.any_eq_true, he, false_or]
      constructor
      · rintro ⟨ext, hmem, hsuf⟩
        exact ⟨before, after, hl, hni,
          ⟨ext, hmem, (List.isSuffixOf_iff_suffix).mp hsuf⟩⟩
      · rintro ⟨b2, a2, hl2, hni2, ext, hmem, hsuf⟩
        have hsame : rsplitOnceList '.' entryPath.data = some (b2, a2) := by
          rw [hl2]
          exact rsplitOnceList_some_of_split '.' b2 a2 hni2
        rw [h] at hsame
        simp only [Option.some.injEq, Prod.mk.injEq] at hsame
        obtain ⟨-, ha⟩ := hsame
        subst ha
        exact ⟨ext, hmem, (List.isSuffixOf_iff_suffix).mpr hsuf⟩

/-! ### Association-list map lemmas -/

theorem mapFind_mapInsert_self (k : String) (v : List Nat)
    (m : List (String × List Nat)) :
    mapFind k (mapInsert k v m) = some v := by
  induction m with
  | nil => simp [mapInsert, mapFind]
  | cons kv rest ih =>
    obtain ⟨k0, v0⟩ := kv
    by_cases h : k0 = k
    · simp [mapInsert, mapFind, h]
    · simp [mapInsert, mapFind, h, ih]

theorem mapFind_mapInsert_ne (k p : String) (v : List Nat)
    (m : List (String × List Nat)) (h : k ≠ p) :
    mapFind p (mapInsert k v m) = mapFind p m := by
  induction m with
  | nil => simp [mapInsert, mapFind, h]
  | cons kv rest ih =>
    obtain ⟨k0, v0⟩ := kv
    by_cases h0 : k0 = k
    · subst h0
      simp [mapInsert, mapFind, h]
    · by_cases hp : k0 = p
      · simp [mapInsert, mapFind, h0, hp, Ne.symm h]
      · simp [mapInsert, mapFind, h0, hp, ih]

/-! ### Which entries the jar loop extracts -/

theorem exists_ok_cons (f : ZipEntryData) (rest : List (Except String ZipEntryData))
    (P : ZipEntryData → Prop) :
    (∃ e, Except.ok e ∈ (Except.ok f :: rest : List (Except String ZipEntryData)) ∧ P e) ↔
      (P f ∨ ∃ e, Except.ok e ∈ rest ∧ P e) := by
  constructor
  · rintro ⟨e, he, hp⟩
    rcases List.mem_cons.mp he with h | h
    · injection h with h
      subst h
      exact Or.inl hp
    · exact Or.inr ⟨e, h, hp⟩
  · rintro (hp | ⟨e, he, hp⟩)
    · exact ⟨f, List.mem_cons_self _ _, hp⟩
    · exact ⟨e, List.mem_cons_of_mem _ he, hp⟩

theorem jarLoop_keys (option : JarOption) (p : String) :
    ∀ (entries : List (Except String ZipEntryData)) (files m : List (String × List Nat)),
      jarLoop option entries files = .ok m →
      (mapFind p m ≠ none ↔
        mapFind p files ≠ none ∨ ∃ e, Except.ok e ∈ entries ∧ extracted option p e) := by
  intro entries
  induction entries with
  | nil =>
    intro files m h
    simp only [jarLoop, Except.ok.injEq] at h
    subst h
    simp
  | cons item rest ih =>
    intro files m h
    cases item with
    | error msg =>
      simp only [jarLoop] at h
      exact Except.noConfusion h
    | ok f =>
      rw [exists_ok_cons]
      simp only [jarLoop] at h
      split at h
      · rename_i hn
        have hPf : ¬ extracted option p f := by
          rintro ⟨h1, -, -⟩
          rw [hn] at h1
          exact Option.noConfusion h1
        rw [ih files m h]
        tauto
      · rename_i fp hn
        split at h
        · rename_i hd
          have hPf : ¬ extracted option p f := by
            rintro ⟨-, h2, -⟩
            rw [hd] at h2
            exact Bool.noConfusion h2
          rw [ih files m h]
          tauto
        · rename_i hd
          split at h
          · rename_i hfil
            simp only [Bool.and_eq_true, Bool.not_eq_true'] at hfil
            obtain ⟨ht, hx⟩ := hfil
            have hPf : ¬ extracted option p f := by
              rintro ⟨h1, -, h3 | h3⟩ <;>
                rw [hn] at h1 <;>
                injection h1 with h1 <;>
                subst h1
              · rw [ht] at h3
                exact Bool.noConfusion h3
              · rw [hx] at h3
                exact Bool.noConfusion h3
            rw [ih files m h]
            tauto
          · rename_i hfil
            split at h
            · exact Except.noConfusion h
            · rename_i bs hb
              have hor : option.target_match fp = true ∨ option.ext_match fp = true := by
                rcases Bool.eq_false_or_eq_true (option.target_match fp) with h1 | h1
                · exact Or.inl h1
                · rcases Bool.eq_false_or_eq_true (option.ext_match fp) with h2 | h2
                  · exact Or.inr h2
                  · exact absurd (by simp [h1, h2]) hfil
              by_cases hfp : fp = p
              · subst hfp
                have hPf : extracted option fp f := ⟨hn, Bool.eq_false_iff.mpr hd, hor⟩
                have hfind : mapFind fp (mapInsert fp bs files) = some bs :=
                  mapFind_mapInsert_self fp bs files
                rw [ih (mapInsert fp bs files) m h, hfind]
                simp [hPf]
              · have hPf : ¬ extracted option p f := by
                  rintro ⟨h1, -, -⟩
                  rw [hn] at h1
                  injection h1 with h1
                  exact hfp h1
                rw [ih (mapInsert fp bs files) m h,
                  mapFind_mapInsert_ne fp p bs files hfp]
                tauto

/-! ### Which bytes the jar loop stores: last accepted entry wins -/

theorem jarLoop_find (option : JarOption) (p : String) :
    ∀ (entries : List (Except String ZipEntryData)) (files m : List (String × List Nat)),
      jarLoop option entries files = .ok m →
      mapFind p m =
        (match lastAcceptedBytes option p entries with
          | some bs => some bs
          | none => mapFind p files) := by
  intro entries
  induction entries with
  | nil =>
    intro files m h
    simp only [jarLoop, Except.ok.injEq] at h
    subst h
    simp [lastAcceptedBytes]
  | cons item rest ih =>
    intro files m h
    cases item with
    | error msg =>
      simp only [jarLoop] at h
      exact Except.noConfusion h
    | ok f =>
      simp only [jarLoop] at h
      split at h
      · rename_i hn
        have hacc : acceptedB option p f = false := by
          simp [acceptedB, hn]
        rw [ih files m h]
        cases hr : lastAcceptedBytes option p rest <;>
          simp [lastAcceptedBytes, hr, itemBytes, hacc]
      · rename_i fp hn
        split at h
        · rename_i hd
          have hacc : acceptedB option p f = false := by
            simp [acceptedB, hd]
          rw [ih files m h]
          cases hr : lastAcceptedBytes option p rest <;>
            simp [lastAcceptedBytes, hr, itemBytes, hacc]
        · rename_i hd
          split at h
          · rename_i hfil
            simp only [Bool.and_eq_true, Bool.not_eq_true'] at hfil
            obtain ⟨ht, hx⟩ := hfil
            have hacc : acceptedB option p f = false := by
              by_cases hfp : fp = p
              · subst hfp
                simp [acceptedB, hn, ht, hx]
              · simp [acceptedB, hn, hfp]
            rw [ih files m h]
            cases hr : lastAcceptedBytes option p rest <;>
              simp [lastAcceptedBytes, hr, itemBytes, hacc]
          · rename_i hfil
            split at h
            · exact Except.noConfusion h
            · rename_i bs hb
              have hor : (option.target_match fp || option.ext_match fp) = true := by
                rcases Bool.eq_false_or_eq_true (option.target_match fp) with h1 | h1
                · simp [h1]
                · rcases Bool.eq_false_or_eq_true (option.ext_match fp) with h2 | h2
                  · simp [h2]
                  · exact absurd (by simp [h1, h2]) hfil
              by_cases hfp : fp = p
              · subst hfp
                have hacc : acceptedB option fp f = true := by
                  simp [acceptedB, hn, hor, Bool.eq_false_iff.mpr hd]
                rw [ih (mapInsert fp bs files) m h]
                cases hr : lastAcceptedBytes option fp rest <;>
                  simp [lastAcceptedBytes, hr, itemBytes, hacc, hb,
                    mapFind_mapInsert_self]
              · have hacc : acceptedB option p f = false := by
                  simp [acceptedB, hn, hfp]
                rw [ih (mapInsert fp bs files) m h]
                cases hr : lastAcceptedBytes option p rest <;>
                  simp [lastAcceptedBytes, hr, itemBytes, hacc,
                    mapFind_mapInsert_ne fp p bs files hfp]

/-! ### Key multiplicity -/

theorem countKey_cons (p a : String) (b : List Nat) (rest : List (String × List Nat)) :
    countKey p ((a, b) :: rest) = (if a = p then 1 else 0) + countKey p rest := by
  by_cases h : a = p
  · simp [countKey, List.filter_cons, h]
    omega
  · simp [countKey, List.filter_cons, h]

theorem countKey_mapInsert_ne (k p : String) (v : List Nat)
    (m : List (String × List Nat)) (h : k ≠ p) :
    countKey p (mapInsert k v m) = countKey p m := by
  induction m with
  | nil => simp [mapInsert, countKey_cons, countKey, h]
  | cons kv rest ih =>
    obtain ⟨k0, v0⟩ := kv
    by_cases h0 : k0 = k
    · subst h0
      simp [mapInsert, countKey_cons, h]
    · simp [mapInsert, h0, countKey_cons, ih]

theorem countKey_mapInsert_self (p : String) (v : List Nat)
    (m : List (String × List Nat)) (h : countKey p m ≤ 1) :
    countKey p (mapInsert p v m) = 1 := by
  induction m with
  | nil => simp [mapInsert, countKey_cons, countKey]
  | cons kv rest ih =>
    obtain ⟨k0, v0⟩ := kv
    by_cases h0 : k0 = p
    · subst h0
      rw [countKey_cons, if_pos rfl] at h
      rw [mapInsert, if_pos rfl, countKey_cons, if_pos rfl]
      omega
    · rw [countKey_cons, if_neg h0] at h
      rw [mapInsert, if_neg h0, countKey_cons, if_neg h0]
      simpa using ih (by omega)

theorem mapFind_some_countKey (p : String) (m : List (String × List Nat))
    (bs : List Nat) (h : mapFind p m = some bs) :
    1 ≤ countKey p m := by
  induction m with
  | nil => simp [mapFind] at h
  | cons kv rest ih =>
    obtain ⟨k0, v0⟩ := kv
    by_cases h0 : k0 = p
    · rw [countKey_cons, if_pos h0]
      omega
    · rw [mapFind, if_neg h0] at h
      rw [countKey_cons, if_neg h0]
      simpa using ih h

theorem jarLoop_countKey (option : JarOption) (p : String) :
    ∀ (entries : List (Except String ZipEntryData)) (files m : List (String × List Nat)),
      jarLoop option entries files = .ok m → countKey p files ≤ 1 →
      countKey p m ≤ 1 := by
  intro entries
  induction entries with
  | nil =>
    intro files m h hc
    simp only [jarLoop, Except.ok.injEq] at h
    subst h
    exact hc
  | cons item rest ih =>
    intro files m h hc
    cases item with
    | error msg =>
      simp only [jarLoop] at h
      exact Except.noConfusion h
    | ok f =>
      simp only [jarLoop] at h
      split at h
      · exact ih files m h hc
      · rename_i fp hn
        split at h
        · exact ih files m h hc
        · split at h
          · exact ih files m h hc
          · split at h
            · exact Except.noConfusion h
            · rename_i bs hb
              refine ih (mapInsert fp bs files) m h ?_
              by_cases hfp : fp = p
              · subst hfp
                rw [countKey_mapInsert_self fp bs files hc]
              · rw [countKey_mapInsert_ne fp p bs files hfp]
                exact hc

/-! ### Success of the loop forces every entry to be wellformed -/

theorem jarLoop_items (option : JarOption) :
    ∀ (entries : List (Except String ZipEntryData)) (files m : List (String × List Nat)),
      jarLoop option entries files = .ok m →
      ∀ item ∈ entries, ∃ e, item = Except.ok e ∧
        (∀ p, e.enclosed_name = some p → e.is_dir = false →
          (option.target_match p || option.ext_match p) = true →
          ∃ bs, e.bytes = .ok bs) := by
  intro entries
  induction entries with
  | nil =>
    intro files m h item hmem
    simp at hmem
  | cons item0 rest ih =>
    intro files m h item hmem
    cases item0 with
    | error msg =>
      simp only [jarLoop] at h
      exact Except.noConfusion h
    | ok f =>
      rcases List.mem_cons.mp hmem with hhd | htl
      · subst hhd
        refine ⟨f, rfl, ?_⟩
        intro p hp hdir hmatch
        simp only [jarLoop] at h
        split at h
        · rename_i hn
          rw [hn] at hp
          exact Option.noConfusion hp
        · rename_i fp hn
          rw [hn] at hp
          injection hp with hp
          subst hp
          split at h
          · rename_i hd
            rw [hd] at hdir
            exact Bool.noConfusion hdir
          · split at h
            · rename_i hfil
              simp only [Bool.and_eq_true, Bool.not_eq_true'] at hfil
              obtain ⟨ht, hx⟩ := hfil
              rw [ht, hx] at hmatch
              exact Bool.noConfusion hmatch
            · split at h
              · exact Except.noConfusion h
              · rename_i bs hb
                exact ⟨bs, hb⟩
      · simp only [jarLoop] at h
        split at h
        · exact ih files m h item htl
        · split at h
          · exact ih files m h item htl
          · split at h
            · exact ih files m h item htl
            · split at h
              · exact Except.noConfusion h
              · rename_i fp hn bs hb
                exact ih _ m h item htl

/-! ### Entries with an unsafe path are invisible to the loop -/

theorem jarLoop_skip (option : JarOption) (e : ZipEntryData)
    (h : e.enclosed_name = none) (post : List (Except String ZipEntryData)) :
    ∀ (front : List (Except String ZipEntryData)) (files : List (String × List Nat)),
      jarLoop option (front ++ Except.ok e :: post) files =
        jarLoop option (front ++ post) files := by
  intro front
  induction front with
  | nil =>
    intro files
    simp only [List.nil_append, jarLoop, h]
  | cons item front ih =>
    intro files
    cases item with
    | error msg => simp only [List.cons_append, jarLoop]
    | ok f =>
      simp only [List.cons_append, jarLoop]
      cases hn : f.enclosed_name with
      | none => exact ih files
      | some fp =>
        by_cases hd : f.is_dir = true
        · simp only [hd, if_true]
          exact ih files
        · simp only [Bool.eq_false_iff.mpr hd, Bool.false_eq_true, if_false]
          by_cases hfil : (!option.target_match fp && !option.ext_match fp) = true
          · simp only [hfil, if_true]
            exact ih files
          · simp only [Bool.eq_false_iff.mpr hfil, Bool.false_eq_true, if_false]
            cases hb : f.bytes with
            | error msg => rfl
            | ok bs => exact ih (mapInsert fp bs files)

/-! ### Bridging jar and its loop -/

theorem jar_ok_iff (entries : List (Except String ZipEntryData)) (option : JarOption)
    (j : Jar) :
    jar (.ok entries) option = .ok j ↔ jarLoop option entries [] = .ok j.files := by
  obtain ⟨files0⟩ := j
  have hj : jar (.ok entries) option
      = (match jarLoop option entries [] with
         | .error e => .error e
         | .ok files => .ok { files := files }) := rfl
  rw [hj]
  cases hl : jarLoop option entries [] with
  | error e => simp
  | ok files => simp

/-! ### The claims -/

/-- C1: on a successful `jar` run, a path `p` is a key of the result iff
the archive has a path-safe (`enclosed_name = some p`), non-directory entry
for `p` whose path passes the target filter OR the extension filter; in
particular matching either dimension alone suffices. -/
theorem C1_extraction_iff_target_or_ext (option : JarOption)
    (entries : List (Except String ZipEntryData)) (j : Jar) (p : String)
    (h : jar (.ok entries) option = .ok j) :
    mapFind p j.files ≠ none ↔
      ∃ e, Except.ok e ∈ entries ∧ e.enclosed_name = some p ∧
        e.is_dir = false ∧
        (option.target_match p = true ∨ option.ext_match p = true) := by
  have hl := (jar_ok_iff entries option j).mp h
  rw [jarLoop_keys option p entries [] j.files hl]
  simp [mapFind, extracted]

/-- Witness for C1 at a one-entry archive and the default option. -/
theorem C1_extraction_iff_target_or_ext_witness :
    mapFind "java/lang/Object.class"
        (Jar.mk [("java/lang/Object.class", [1])]).files ≠ none :=
  (C1_extraction_iff_target_or_ext JarOptionBuilder.default [Except.ok objectEntry]
      (Jar.mk [("java/lang/Object.class", [1])]) "java/lang/Object.class" rfl).mpr
    ⟨objectEntry, by simp, rfl, rfl, Or.inl rfl⟩

/-- C2 counterexample: in the concrete scenario (archive with
`java/lang/Object.class`, `java/util/List.class`, `META-INF/MANIFEST.MF`
and directory `java/lang/`; option built by `target("java/lang")`),
`java/util/List.class` is also a key of the result, so the key set is not
exactly `{java/lang/Object.class}`. -/
theorem C2_counterexample :
    "java/util/List.class" ∈ resultKeys (jar (.ok scenarioArchive) scenarioOption) := by
  decide

/-- C2 amended: with `target("java/lang")` and no extension target, the
extension filter accepts every path (its set is empty), so with
OR-acceptance every non-directory path-safe entry is extracted: the key
set is exactly the three non-directory entries. -/
theorem C2_amended_keys :
    resultKeys (jar (.ok scenarioArchive) scenarioOption) =
      ["java/lang/Object.class", "java/util/List.class", "META-INF/MANIFEST.MF"] := by
  decide

/-- C3: `ext_match` is true when the extension set is empty; otherwise a
path without `.` never matches, and a path with a `.` matches iff the part
after the last `.` ends with some registered extension (a suffix match:
registering `"ass"` accepts extension `"class"`). -/
theorem C3_ext_match_spec :
    (∀ (option : JarOption) (entryPath : String),
        option.ext_match entryPath = true ↔ extensionMatchesSpec option entryPath) ∧
      (JarOption.mk [] ["ass"]).ext_match "Object.class" = true :=
  ⟨ext_match_iff, by decide⟩

/-- C4: `target_match` is true when the prefix set is empty; otherwise it
is true iff the path starts with some registered prefix, by plain
initial-segment comparison without path-segment boundary awareness
(`"java/la"` matches `"java/lang/Object.class"`). -/
theorem C4_target_match_spec :
    (∀ (option : JarOption) (entryPath : String),
        option.target_match entryPath = true ↔ pathMatchesSpec option entryPath) ∧
      (JarOption.mk ["java/la"] []).target_match "java/lang/Object.class" = true :=
  ⟨target_match_iff, by decide⟩

/-- C5: with the option of `JarOptionBuilder::default` (both filter sets
empty), a successful `jar` run contains every path-safe, non-directory
entry of the archive. -/
theorem C5_default_accepts_all (entries : List (Except String ZipEntryData)) (j : Jar)
    (h : jar (.ok entries) JarOptionBuilder.default = .ok j)
    (e : ZipEntryData) (he : Except.ok e ∈ entries) (p : String)
    (hn : e.enclosed_name = some p) (hd : e.is_dir = false) :
    mapFind p j.files ≠ none := by
  have hl := (jar_ok_iff entries JarOptionBuilder.default j).mp h
  exact (jarLoop_keys JarOptionBuilder.default p entries [] j.files hl).mpr
    (Or.inr ⟨e, he, hn, hd, Or.inl rfl⟩)

/-- Witness for C5 at a one-entry archive. -/
theorem C5_default_accepts_all_witness :
    mapFind "META-INF/MANIFEST.MF" (Jar.mk [("META-INF/MANIFEST.MF", [3])]).files ≠ none :=
  C5_default_accepts_all [Except.ok manifestEntry] (Jar.mk [("META-INF/MANIFEST.MF", [3])])
    rfl manifestEntry (by simp) "META-INF/MANIFEST.MF" rfl rfl

/-- C6: when opening fails, `jar` returns exactly that error; and when a
run succeeds, every archive item was wellformed (no `by_index` error) and
every accepted entry's bytes were readable — contrapositively, any failure
aborts the whole operation with an error and no partial result. -/
theorem C6_failure_aborts :
    (∀ (option : JarOption) (msg : String), jar (.error msg) option = .error msg) ∧
      ∀ (option : JarOption) (entries : List (Except String ZipEntryData)) (j : Jar),
        jar (.ok entries) option = .ok j →
        ∀ item ∈ entries, ∃ e, item = Except.ok e ∧
          (∀ p, e.enclosed_name = some p → e.is_dir = false →
            (option.target_match p || option.ext_match p) = true →
            ∃ bs, e.bytes = .ok bs) := by
  refine ⟨fun option msg => rfl, fun option entries j h => ?_⟩
  exact jarLoop_items option entries [] j.files ((jar_ok_iff entries option j).mp h)

/-- Witness for C6: a missing file propagates its error, and a successful
one-entry run certifies the entry wellformed. -/
theorem C6_failure_aborts_witness :
    jar (.error "missing") JarOptionBuilder.default = .error "missing" ∧
      ∃ e, (Except.ok manifestEntry : Except String ZipEntryData) = Except.ok e ∧
        (∀ p, e.enclosed_name = some p → e.is_dir = false →
          (JarOptionBuilder.default.target_match p ||
            JarOptionBuilder.default.ext_match p) = true →
          ∃ bs, e.bytes = .ok bs) :=
  ⟨C6_failure_aborts.1 JarOptionBuilder.default "missing",
    C6_failure_aborts.2 JarOptionBuilder.default [Except.ok manifestEntry]
      (Jar.mk [("META-INF/MANIFEST.MF", [3])]) rfl (Except.ok manifestEntry) (by simp)⟩

/-- C7: on a successful run, when the last entry accepted under path `p`
(in directory order) has bytes `bs`, the result holds exactly one binding
for `p` and its bytes are `bs` — duplicates resolve last-write-wins with
no error. -/
theorem C7_last_write_wins (option : JarOption)
    (entries : List (Except String ZipEntryData)) (j : Jar) (p : String) (bs : List Nat)
    (h : jar (.ok entries) option = .ok j)
    (hl : lastAcceptedBytes option p entries = some bs) :
    mapFind p j.files = some bs ∧ countKey p j.files = 1 := by
  have hloop := (jar_ok_iff entries option j).mp h
  have hfind := jarLoop_find option p entries [] j.files hloop
  rw [hl] at hfind
  refine ⟨hfind, ?_⟩
  have hle := jarLoop_countKey option p entries [] j.files hloop (by simp [countKey])
  have hge := mapFind_some_countKey p j.files bs hfind
  omega

/-- Witness for C7 at an archive with two entries for the path `a.txt`:
the later bytes `[20]` win. -/
theorem C7_last_write_wins_witness :
    mapFind "a.txt" (Jar.mk [("a.txt", [20])]).files = some [20] ∧
      countKey "a.txt" (Jar.mk [("a.txt", [20])]).files = 1 :=
  C7_last_write_wins JarOptionBuilder.default [Except.ok dupEntryA, Except.ok dupEntryB]
    (Jar.mk [("a.txt", [20])]) "a.txt" [20] rfl rfl

/-- C8: on a successful run, every key of the result comes from a
path-safe, non-directory entry — a directory entry never contributes a
key, whatever the filters. -/
theorem C8_no_directory_keys (option : JarOption)
    (entries : List (Except String ZipEntryData)) (j : Jar) (p : String)
    (h : jar (.ok entries) option = .ok j) (hk : mapFind p j.files ≠ none) :
    ∃ e, Except.ok e ∈ entries ∧ e.enclosed_name = some p ∧ e.is_dir = false := by
  have hl := (jar_ok_iff entries option j).mp h
  rcases (jarLoop_keys option p entries [] j.files hl).mp hk with hfiles | ⟨e, hmem, hext⟩
  · simp [mapFind] at hfiles
  · obtain ⟨he1, he2, -⟩ := hext
    exact ⟨e, hmem, he1, he2⟩

/-- Witness for C8 at the concrete scenario archive, which contains the
directory entry `java/lang/`. -/
theorem C8_no_directory_keys_witness :
    ∃ e, Except.ok e ∈ scenarioArchive ∧
      e.enclosed_name = some "java/lang/Object.class" ∧ e.is_dir = false :=
  C8_no_directory_keys scenarioOption scenarioArchive
    (Jar.mk [("java/lang/Object.class", [1]), ("java/util/List.class", [2]),
      ("META-INF/MANIFEST.MF", [3])])
    "java/lang/Object.class" rfl (by decide)

/-- C9: an entry whose path the container reports as unrepresentable or
unsafe (`enclosed_name = none`) is skipped silently: the run behaves
exactly as if the entry were absent — no error, the entry excluded, all
other entries processed. -/
theorem C9_unsafe_paths_skipped (option : JarOption)
    (front post : List (Except String ZipEntryData)) (e : ZipEntryData)
    (h : e.enclosed_name = none) :
    jar (.ok (front ++ Except.ok e :: post)) option = jar (.ok (front ++ post)) option := by
  have hj1 : jar (.ok (front ++ Except.ok e :: post)) option
      = (match jarLoop option (front ++ Except.ok e :: post) [] with
         | .error er => .error er
         | .ok files => .ok { files := files }) := rfl
  have hj2 : jar (.ok (front ++ post)) option
      = (match jarLoop option (front ++ post) [] with
         | .error er => .error er
         | .ok files => .ok { files := files }) := rfl
  rw [hj1, hj2, jarLoop_skip option e h post front []]

/-- Witness for C9: dropping the unsafe middle entry of a three-entry
archive leaves the run unchanged. -/
theorem C9_unsafe_paths_skipped_witness :
    jar (.ok ([Except.ok objectEntry] ++ Except.ok unsafeEntry :: [Except.ok listEntry]))
        JarOptionBuilder.default =
      jar (.ok ([Except.ok objectEntry] ++ [Except.ok listEntry])) JarOptionBuilder.default :=
  C9_unsafe_paths_skipped JarOptionBuilder.default [Except.ok objectEntry]
    [Except.ok listEntry] unsafeEntry rfl

/-- C10: when the extension set contains the empty string, `ext_match`
accepts every path containing a `.` (every suffix ends with `""`), so with
only `ext("")` configured a successful run contains every path-safe,
non-directory entry whose path contains a dot. -/
theorem C10_empty_extension_accepts_dotted :
    (∀ (option : JarOption) (p : String), "" ∈ option.extension_targets →
        '.' ∈ p.data → option.ext_match p = true) ∧
      ∀ (entries : List (Except String ZipEntryData)) (j : Jar),
        jar (.ok entries) ((JarOptionBuilder.builder.ext "").build) = .ok j →
        ∀ (e : ZipEntryData) (p : String), Except.ok e ∈ entries →
          e.is_dir = false → e.enclosed_name = some p → '.' ∈ p.data →
          mapFind p j.files ≠ none := by
  have hext : ∀ (option : JarOption) (p : String), "" ∈ option.extension_targets →
      '.' ∈ p.data → option.ext_match p = true := by
    intro option p hmem hdot
    refine (ext_match_iff option p).mpr (Or.inr ?_)
    cases hr : rsplitOnceList '.' p.data with
    | none => exact absurd hdot ((rsplitOnceList_eq_none '.' p.data).mp hr)
    | some pq =>
      obtain ⟨b, a⟩ := pq
      obtain ⟨hsplit, hni⟩ := rsplitOnceList_split_of_some '.' p.data b a hr
      refine ⟨b, a, hsplit, hni, "", hmem, ?_⟩
      rw [show ("" : String).data = [] from rfl]
      exact List.nil_suffix
  refine ⟨hext, fun entries j h e p hmem hdir hname hdot => ?_⟩
  have hl := (jar_ok_iff entries ((JarOptionBuilder.builder.ext "").build) j).mp h
  refine (jarLoop_keys _ p entries [] j.files hl).mpr
    (Or.inr ⟨e, hmem, hname, hdir, Or.inr (hext _ p ?_ hdot)⟩)
  simp [JarOptionBuilder.builder, JarOptionBuilder.ext, JarOptionBuilder.build, setInsert]

/-- Witness for C10: `ext("")` accepts `Object.class`, and a run over a
one-entry archive extracts it. -/
theorem C10_empty_extension_accepts_dotted_witness :
    (JarOption.mk [] [""]).ext_match "Object.class" = true ∧
      mapFind "java/lang/Object.class"
        (Jar.mk [("java/lang/Object.class", [1])]).files ≠ none :=
  ⟨C10_empty_extension_accepts_dotted.1 (JarOption.mk [] [""]) "Object.class"
      (by simp) (by decide),
    C10_empty_extension_accepts_dotted.2 [Except.ok objectEntry]
      (Jar.mk [("java/lang/Object.class", [1])]) rfl objectEntry
      "java/lang/Object.class" (by simp) rfl rfl (by decide)⟩

end Jars
